import Mathlib

/-!
# Ledger reconciliation and rollback commands of goose

A shallow embedding of `reset.go`, `down.go`, `redo.go` and of `SetDialect`
from `dialect.go`, together with the properties that the specification states
about them.

* Go `error` values are `Option Err` (`none` is `nil`).
* `int64` versions are `Int`; the commands only compare versions.
* A Go `map[int64]bool` is an association list with at most one pair per key.
* `log.Fatal` ends the process: a call either returns to its caller or is
  `Run.fatal`.
* The `for { ... }` loop of `DownTo` takes a bound on its iterations and yields
  `none` when the bound is used up.
-/

namespace Goose

/-! ## Data model -/

/-- Go `error` values met in the commands. -/
inductive Err where
  /-- The error of `Migrations.Current` when no migration has the version. -/
  | noCurrentVersion
  /-- Result of `fmt.Errorf("no migration %v", currentVersion)` in `Down`. -/
  | noMigration (currentVersion : Int)
  /-- Result of `fmt.Errorf("%q: unknown dialect", d)` in `SetDialect`. -/
  | unknownDialect (d : String)
  /-- Any failure reported by the database, the driver or a migration action. -/
  | external (msg : String)
  deriving DecidableEq, Repr

/-- The two columns of a ledger row that the row query selects. -/
structure MigrationRecord where
  VersionID : Int
  IsApplied : Bool
  deriving DecidableEq, Repr

/-- What `rows.Scan` yields for one row of the stream: the decoded record or the scan error. -/
abbrev RawRow := Except Err MigrationRecord

/-- A migration action that was invoked. -/
inductive Call where
  | down (version : Int)
  | up (version : Int)
  deriving DecidableEq, Repr

/-- The database as the commands see it: the append-only ledger, oldest row
first, and the record of the migration actions invoked so far, oldest first. -/
structure DB where
  ledger : List MigrationRecord
  calls : List Call
  deriving DecidableEq, Repr

/-- A migration descriptor: its version and its two actions, each of which
succeeds (`none`) or fails with an error in a given database. -/
structure Migration where
  Version : Int
  upAction : DB → Option Err
  downAction : DB → Option Err

/-- The collaborators whose code lies outside the files embedded here:
`GetDialect().dbVersionQuery`, `createVersionTable` and `CollectMigrations`. -/
structure Env where
  dbVersionQuery : DB → Except Err (List RawRow)
  createVersionTable : DB → Option Err × DB
  CollectMigrations : Except Err (List Migration)

/-- How a call ends: it returns a value and leaves a database, or `log.Fatal`
has ended the process. -/
inductive Run (α : Type) where
  | ret (a : α) (db : DB)
  | fatal (msg : String)

/-- Go `map[int64]bool`. -/
abbrev StatusMap := List (Int × Bool)

/-- The read `_, ok := result[k]`. -/
def StatusMap.has (m : StatusMap) (k : Int) : Bool := (m.lookup k).isSome

/-- The read `statuses[k]`, which is `false` for an absent key. -/
def StatusMap.get (m : StatusMap) (k : Int) : Bool := (m.lookup k).getD false

/-- The assignment `result[k] = v`. -/
def StatusMap.set (m : StatusMap) (k : Int) (v : Bool) : StatusMap :=
  (k, v) :: m.filter (fun p => p.1 != k)

/-! ## reset.go -/

/-- The `for rows.Next()` loop of `dbMigrationsStatus`: `none` when a scan
fails, which is where the code calls `log.Fatal`. -/
def scanRows : List RawRow → StatusMap → Option StatusMap
  | [], result => some result
  | Except.error _ :: _, _ => none
  | Except.ok row :: rest, result =>
    if result.has row.VersionID then scanRows rest result
    else scanRows rest (result.set row.VersionID row.IsApplied)

/-- Embedding of `dbMigrationsStatus`. -/
def dbMigrationsStatus (env : Env) (db : DB) : Run (StatusMap × Option Err) :=
  match env.dbVersionQuery db with
  | Except.error _ => Run.ret ([], (env.createVersionTable db).1) (env.createVersionTable db).2
  | Except.ok rows =>
    match scanRows rows [] with
    | none => Run.fatal "error scanning rows:"
    | some result => Run.ret (result, none) db

/-- Modelled from the spec: `Migration.Down` is not among the sources. The
executor runs the backward action and, on success, appends the ledger row
`(version, false)`. -/
def Migration.Down (m : Migration) (db : DB) : Option Err × DB :=
  match m.downAction db with
  | some e => (some e, { db with calls := db.calls ++ [Call.down m.Version] })
  | none =>
    (none, { ledger := db.ledger ++ [⟨m.Version, false⟩],
             calls := db.calls ++ [Call.down m.Version] })

/-- Modelled from the spec: `Migration.Up` is not among the sources. The
executor runs the forward action and, on success, appends the ledger row
`(version, true)`. -/
def Migration.Up (m : Migration) (db : DB) : Option Err × DB :=
  match m.upAction db with
  | some e => (some e, { db with calls := db.calls ++ [Call.up m.Version] })
  | none =>
    (none, { ledger := db.ledger ++ [⟨m.Version, true⟩],
             calls := db.calls ++ [Call.up m.Version] })

/-- Modelled from the spec: the ordering of `Migrations` is not among the
sources. `sort.Sort(sort.Reverse(migrations))` leaves the set sorted descending
by version. -/
def sortReverse (migrations : List Migration) : List Migration :=
  migrations.insertionSort (fun a b => b.Version ≤ a.Version)

/-- The `for _, migration := range migrations` loop of `Reset`. -/
def resetLoop (statuses : StatusMap) : List Migration → DB → Run (Option Err)
  | [], db => Run.ret none db
  | migration :: rest, db =>
    if !statuses.get migration.Version then resetLoop statuses rest db
    else
      match migration.Down db with
      | (some e, db1) => Run.ret (some e) db1
      | (none, db1) => resetLoop statuses rest db1

/-- Embedding of `Reset`. -/
def Reset (env : Env) (db : DB) : Run (Option Err) :=
  match env.CollectMigrations with
  | Except.error e => Run.ret (some e) db
  | Except.ok migrations =>
    match dbMigrationsStatus env db with
    | Run.fatal msg => Run.fatal msg
    | Run.ret (_, some e) db1 => Run.ret (some e) db1
    | Run.ret (statuses, none) db1 => resetLoop statuses (sortReverse migrations) db1

/-! ## The version and the current migration -/

/-- The greatest element of a list of versions. -/
def greatest : List Int → Option Int
  | [] => none
  | v :: vs =>
    match greatest vs with
    | none => some v
    | some w => some (max v w)

/-- The versions whose entry in the map is `true`. -/
def appliedVersions (m : StatusMap) : List Int :=
  (m.filter (fun p => p.2)).map (fun p => p.1)

/-- Modelled from the spec: the version computation is not among the sources.
`DatabaseVersion` is the greatest version whose reconciled entry is applied,
and `0` when no version is applied. -/
def DatabaseVersion (m : StatusMap) : Int := (greatest (appliedVersions m)).getD 0

/-- Modelled from the spec: `GetDBVersion` is not among the sources. It
reconciles the ledger and reports `DatabaseVersion`; when the row query fails it
is the reconciler's bootstrap that runs, with the empty state and version `0`. -/
def GetDBVersion (env : Env) (db : DB) : Run (Int × Option Err) :=
  match dbMigrationsStatus env db with
  | Run.fatal msg => Run.fatal msg
  | Run.ret (statuses, err) db1 => Run.ret (DatabaseVersion statuses, err) db1

/-- Modelled from the spec: `Migrations.Current` is not among the sources. It
returns the migration whose version equals the given one and fails when there
is none. -/
def Current (ms : List Migration) (current : Int) : Except Err Migration :=
  match ms.find? (fun m => m.Version == current) with
  | some m => Except.ok m
  | none => Except.error Err.noCurrentVersion

/-! ## down.go -/

/-- Embedding of `Down`. -/
def Down (env : Env) (db : DB) : Run (Option Err) :=
  match GetDBVersion env db with
  | Run.fatal msg => Run.fatal msg
  | Run.ret (_, some e) db1 => Run.ret (some e) db1
  | Run.ret (currentVersion, none) db1 =>
    match env.CollectMigrations with
    | Except.error e => Run.ret (some e) db1
    | Except.ok migrations =>
      match Current migrations currentVersion with
      | Except.error _ => Run.ret (some (Err.noMigration currentVersion)) db1
      | Except.ok current =>
        match current.Down db1 with
        | (e, db2) => Run.ret e db2

/-- The `for { ... }` loop of `DownTo`, run for at most `fuel` iterations. -/
def DownToLoop (env : Env) (migrations : List Migration) (version : Int) :
    Nat → DB → Option (Run (Option Err))
  | 0, _ => none
  | fuel + 1, db =>
    match GetDBVersion env db with
    | Run.fatal msg => some (Run.fatal msg)
    | Run.ret (_, some e) db1 => some (Run.ret (some e) db1)
    | Run.ret (currentVersion, none) db1 =>
      match Current migrations currentVersion with
      | Except.error _ => some (Run.ret none db1)
      | Except.ok current =>
        if current.Version ≤ version then some (Run.ret none db1)
        else
          match current.Down db1 with
          | (some e, db2) => some (Run.ret (some e) db2)
          | (none, db2) => DownToLoop env migrations version fuel db2

/-- Embedding of `DownTo`. -/
def DownTo (env : Env) (version : Int) (fuel : Nat) (db : DB) : Option (Run (Option Err)) :=
  match env.CollectMigrations with
  | Except.error e => some (Run.ret (some e) db)
  | Except.ok migrations => DownToLoop env migrations version fuel db

/-! ## redo.go -/

/-- Embedding of `Redo`. -/
def Redo (env : Env) (db : DB) : Run (Option Err) :=
  match GetDBVersion env db with
  | Run.fatal msg => Run.fatal msg
  | Run.ret (_, some e) db1 => Run.ret (some e) db1
  | Run.ret (currentVersion, none) db1 =>
    match env.CollectMigrations with
    | Except.error e => Run.ret (some e) db1
    | Except.ok migrations =>
      match Current migrations currentVersion with
      | Except.error e => Run.ret (some e) db1
      | Except.ok current =>
        match current.Down db1 with
        | (some e, db2) => Run.ret (some e) db2
        | (none, db2) =>
          match current.Up db2 with
          | (some e, db3) => Run.ret (some e) db3
          | (none, db3) => Run.ret none db3

/-! ## dialect.go -/

/-- The six implementations of `SQLDialect`. -/
inductive SQLDialect where
  | PostgresDialect
  | MySQLDialect
  | Sqlite3Dialect
  | RedshiftDialect
  | TiDBDialect
  | ClickhouseDialect
  deriving DecidableEq, Repr

/-- Initial value of the package variable `dialect`. -/
def initialDialect : SQLDialect := SQLDialect.PostgresDialect

/-- Embedding of `GetDialect`, reading the package variable. -/
def GetDialect (dialect : SQLDialect) : SQLDialect := dialect

/-- Embedding of `SetDialect`: the returned error and the package variable afterwards. -/
def SetDialect (d : String) (dialect : SQLDialect) : Option Err × SQLDialect :=
  if d = "postgres" then (none, SQLDialect.PostgresDialect)
  else if d = "mysql" then (none, SQLDialect.MySQLDialect)
  else if d = "sqlite3" then (none, SQLDialect.Sqlite3Dialect)
  else if d = "redshift" then (none, SQLDialect.RedshiftDialect)
  else if d = "tidb" then (none, SQLDialect.TiDBDialect)
  else if d = "clickhouse" then (none, SQLDialect.ClickhouseDialect)
  else (some (Err.unknownDialect d), dialect)

/-! ## Ledgers and their reconciled state -/

/-- The row stream of a ledger under the dialect contract: most recent row first, every row decoding. -/
def ledgerStream (ledger : List MigrationRecord) : List RawRow :=
  ledger.reverse.map Except.ok

/-- The row query answers with the ledger, most recent row first. -/
def LedgerQuery (env : Env) : Prop :=
  ∀ db, env.dbVersionQuery db = Except.ok (ledgerStream db.ledger)

/-- The reconciled state of a ledger: what the scan loop builds from its stream. -/
def reconciled (ledger : List MigrationRecord) : StatusMap :=
  (scanRows (ledgerStream ledger) []).getD []

/-- An environment over a given migration set whose row query answers with the
ledger and whose table creation succeeds without touching the database. -/
def ledgerEnv (ms : List Migration) : Env where
  dbVersionQuery := fun db => Except.ok (ledgerStream db.ledger)
  createVersionTable := fun db => (none, db)
  CollectMigrations := Except.ok ms

/-- A migration with the given version whose two actions always succeed. -/
def okMigration (v : Int) : Migration where
  Version := v
  upAction := fun _ => none
  downAction := fun _ => none

/-- The applied flag of the first row of a stream that carries the version. -/
def firstFlag (rows : List MigrationRecord) (v : Int) : Option Bool :=
  (rows.find? (fun r => r.VersionID == v)).map (fun r => r.IsApplied)

/-- An environment whose row query delivers a stream with a row that cannot be decoded. -/
def scanFailEnv : Env where
  dbVersionQuery := fun _ =>
    Except.ok [Except.ok ⟨1, true⟩, Except.error (Err.external "scan"), Except.ok ⟨2, true⟩]
  createVersionTable := fun db => (none, db)
  CollectMigrations := Except.ok []

/-- An environment whose row query fails and whose table creation fails too. -/
def noTableEnv : Env where
  dbVersionQuery := fun _ => Except.error (Err.external "no such table")
  createVersionTable := fun db => (some (Err.external "cannot create"), db)
  CollectMigrations := Except.ok [okMigration 1]

/-- Whether the reconciled state of a ledger marks the version applied. -/
def isApplied (ledger : List MigrationRecord) (v : Int) : Bool := (reconciled ledger).get v

/-- The version reported for a ledger: `DatabaseVersion` of its reconciled state. -/
def ledgerVersion (ledger : List MigrationRecord) : Int := DatabaseVersion (reconciled ledger)

/-- The number of versions that the reconciled state of a ledger marks applied. -/
def appliedCount (ledger : List MigrationRecord) : Nat := (appliedVersions (reconciled ledger)).length

/-- The rows `(k,false), (k-1,false), ...`, `n` of them. -/
def rollbackRows (k : Int) (n : Nat) : List MigrationRecord :=
  (List.range n).map (fun (i : Nat) => ⟨k - (i : Int), false⟩)

/-- The versions `k, k-1, ...`, `n` of them. -/
def descending (k : Int) (n : Nat) : List Int :=
  (List.range n).map (fun (i : Nat) => k - (i : Int))

/-! ## Lemmas on status maps -/

theorem lookup_filter_ne (m : StatusMap) (k v : Int) :
    (m.filter (fun p => p.1 != k)).lookup v = if v = k then none else m.lookup v := by
  induction m with
  | nil => simp
  | cons p m ih =>
    obtain ⟨a, b⟩ := p
    by_cases hak : a = k
    · have h1 : (a != k) = false := by simpa using hak
      rw [List.filter_cons]
      simp only [h1, Bool.false_eq_true, if_false]
      rw [ih]
      by_cases hvk : v = k
      · simp [hvk]
      · have : (v == a) = false := by simpa [hak] using hvk
        simp [hvk, List.lookup_cons, this]
    · have h1 : (a != k) = true := by simpa using hak
      rw [List.filter_cons]
      simp only [h1, if_true]
      by_cases hva : v = a
      · have hvk : ¬ v = k := by rw [hva]; exact hak
        have : (v == a) = true := by simpa using hva
        simp [List.lookup_cons, this, hvk]
      · have : (v == a) = false := by simpa using hva
        simp only [List.lookup_cons, this]
        exact ih

theorem lookup_set (m : StatusMap) (k : Int) (b : Bool) (v : Int) :
    (m.set k b).lookup v = if v = k then some b else m.lookup v := by
  unfold StatusMap.set
  by_cases hvk : v = k
  · subst hvk
    simp [List.lookup_cons]
  · have : (v == k) = false := by simpa using hvk
    simp [List.lookup_cons, this, lookup_filter_ne, hvk]

theorem lookup_isSome_iff (m : StatusMap) (v : Int) :
    (m.lookup v).isSome = true ↔ v ∈ m.map Prod.fst := by
  induction m with
  | nil => simp
  | cons p m ih =>
    obtain ⟨a, b⟩ := p
    by_cases hva : v = a
    · subst hva
      simp [List.lookup_cons]
    · have : (v == a) = false := by simpa using hva
      simp only [List.lookup_cons, this, List.map_cons, List.mem_cons, hva, false_or]
      exact ih

theorem keys_nodup_set (m : StatusMap) (k : Int) (b : Bool)
    (h : (m.map Prod.fst).Nodup) : ((m.set k b).map Prod.fst).Nodup := by
  unfold StatusMap.set
  rw [List.map_cons, List.nodup_cons]
  constructor
  · simp
  · exact (h.sublist ((List.filter_sublist m).map Prod.fst))

theorem mem_iff_lookup (m : StatusMap) (h : (m.map Prod.fst).Nodup) (v : Int) (b : Bool) :
    (v, b) ∈ m ↔ m.lookup v = some b := by
  induction m with
  | nil => simp
  | cons p m ih =>
    obtain ⟨a, c⟩ := p
    rw [List.map_cons, List.nodup_cons] at h
    by_cases hva : v = a
    · subst hva
      have hnot : ∀ x, (v, x) ∉ m := fun x hx => h.1 (List.mem_map.mpr ⟨(v, x), hx, rfl⟩)
      simp [List.lookup_cons, hnot]
      exact eq_comm
    · have : (v == a) = false := by simpa using hva
      simp [List.lookup_cons, this, hva, ih h.2]

/-- The scan loop over a stream in which every row decodes: it ends with a map,
the keys stay distinct, and a key is looked up in the start map first and in
the first row carrying it otherwise. -/
theorem scanRows_ok (rows : List MigrationRecord) :
    ∀ result : StatusMap, (result.map Prod.fst).Nodup →
      ∃ m, scanRows (rows.map Except.ok) result = some m ∧
        (m.map Prod.fst).Nodup ∧
        ∀ v, m.lookup v = (result.lookup v).orElse (fun _ => firstFlag rows v) := by
  induction rows with
  | nil =>
    intro result h
    refine ⟨result, rfl, h, fun v => ?_⟩
    cases result.lookup v <;> simp [firstFlag]
  | cons r rows ih =>
    intro result h
    simp only [List.map_cons, scanRows]
    by_cases hhas : result.has r.VersionID = true
    · obtain ⟨m, hm, hnd, hl⟩ := ih result h
      refine ⟨m, by simp [hhas, hm], hnd, fun v => ?_⟩
      rw [hl v]
      by_cases hv : r.VersionID = v
      · subst hv
        unfold StatusMap.has at hhas
        obtain ⟨b, hb⟩ := Option.isSome_iff_exists.mp hhas
        simp [hb]
      · cases result.lookup v <;> simp [firstFlag, List.find?_cons, hv]
    · obtain ⟨m, hm, hnd, hl⟩ := ih (result.set r.VersionID r.IsApplied)
        (keys_nodup_set result _ _ h)
      refine ⟨m, by simp [hhas, hm], hnd, fun v => ?_⟩
      rw [hl v, lookup_set]
      by_cases hv : v = r.VersionID
      · rw [hv]
        unfold StatusMap.has at hhas
        have hn : List.lookup r.VersionID result = none := by
          cases hc : List.lookup r.VersionID result with
          | none => rfl
          | some b => rw [hc] at hhas; exact absurd rfl hhas
        simp [hn, firstFlag, List.find?_cons]
      · have hv2 : ¬ r.VersionID = v := fun h => hv h.symm
        cases result.lookup v <;> simp [hv, firstFlag, List.find?_cons, hv2]

theorem scanRows_error (rows : List RawRow) (e : Err) (h : Except.error e ∈ rows) :
    ∀ result : StatusMap, scanRows rows result = none := by
  induction rows with
  | nil => simp at h
  | cons r rows ih =>
    intro result
    cases r with
    | error e1 => rfl
    | ok row =>
      have h1 : Except.error e ∈ rows := by simpa using h
      simp only [scanRows]
      split
      · exact ih h1 result
      · exact ih h1 _

/-! ## Lemmas on the reconciled state of a ledger -/

theorem scanRows_ledger (ledger : List MigrationRecord) :
    scanRows (ledgerStream ledger) [] = some (reconciled ledger) := by
  obtain ⟨m, hm, -, -⟩ := scanRows_ok ledger.reverse [] (by simp)
  unfold reconciled ledgerStream
  rw [hm]
  rfl

theorem reconciled_keys_nodup (ledger : List MigrationRecord) :
    ((reconciled ledger).map Prod.fst).Nodup := by
  obtain ⟨m, hm, hnd, -⟩ := scanRows_ok ledger.reverse [] (by simp)
  have h := scanRows_ledger ledger
  unfold ledgerStream at h
  rw [hm] at h
  cases h
  exact hnd

theorem lookup_reconciled (ledger : List MigrationRecord) (v : Int) :
    (reconciled ledger).lookup v = firstFlag ledger.reverse v := by
  obtain ⟨m, hm, -, hl⟩ := scanRows_ok ledger.reverse [] (by simp)
  have h := scanRows_ledger ledger
  unfold ledgerStream at h
  rw [hm] at h
  cases h
  rw [hl v]
  simp

theorem lookup_reconciled_append (ledger : List MigrationRecord) (r : MigrationRecord) (v : Int) :
    (reconciled (ledger ++ [r])).lookup v =
      if r.VersionID = v then some r.IsApplied else (reconciled ledger).lookup v := by
  rw [lookup_reconciled, lookup_reconciled, List.reverse_append]
  by_cases h : r.VersionID = v
  · simp [firstFlag, List.find?_cons, h]
  · simp [firstFlag, List.find?_cons, h]

theorem isApplied_append (ledger : List MigrationRecord) (r : MigrationRecord) (v : Int) :
    isApplied (ledger ++ [r]) v = if r.VersionID = v then r.IsApplied else isApplied ledger v := by
  unfold isApplied StatusMap.get
  rw [lookup_reconciled_append]
  by_cases h : r.VersionID = v
  · simp [h]
  · simp [h]

theorem mem_appliedVersions (m : StatusMap) (h : (m.map Prod.fst).Nodup) (v : Int) :
    v ∈ appliedVersions m ↔ m.get v = true := by
  have h1 : v ∈ appliedVersions m ↔ (v, true) ∈ m := by
    unfold appliedVersions
    simp only [List.mem_map, List.mem_filter]
    constructor
    · rintro ⟨⟨a, b⟩, ⟨hp, hb⟩, hv⟩
      simp only at hb hv
      subst hb hv
      exact hp
    · intro hp
      exact ⟨(v, true), ⟨hp, rfl⟩, rfl⟩
  rw [h1, mem_iff_lookup m h]
  unfold StatusMap.get
  cases List.lookup v m with
  | none => simp
  | some b => simp

theorem mem_appliedVersions_reconciled (ledger : List MigrationRecord) (v : Int) :
    v ∈ appliedVersions (reconciled ledger) ↔ isApplied ledger v = true :=
  mem_appliedVersions _ (reconciled_keys_nodup ledger) v

theorem appliedVersions_nodup (m : StatusMap) (h : (m.map Prod.fst).Nodup) :
    (appliedVersions m).Nodup := by
  unfold appliedVersions
  exact h.sublist ((List.filter_sublist m).map Prod.fst)

theorem greatest_eq_none (l : List Int) : greatest l = none ↔ l = [] := by
  cases l with
  | nil => simp [greatest]
  | cons v vs =>
    simp only [greatest]
    cases greatest vs <;> simp

theorem greatest_spec (l : List Int) :
    ∀ k, greatest l = some k → k ∈ l ∧ ∀ x ∈ l, x ≤ k := by
  induction l with
  | nil => intro k h; simp [greatest] at h
  | cons v vs ih =>
    intro k h
    simp only [greatest] at h
    cases hg : greatest vs with
    | none =>
      rw [hg] at h
      have hvs : vs = [] := (greatest_eq_none vs).mp hg
      subst hvs
      simp only [Option.some.injEq] at h
      subst h
      simp
    | some w =>
      rw [hg] at h
      simp only [Option.some.injEq] at h
      obtain ⟨hw, hle⟩ := ih w hg
      subst h
      constructor
      · rcases le_total v w with h1 | h1
        · rw [max_eq_right h1]
          exact List.mem_cons_of_mem _ hw
        · rw [max_eq_left h1]
          exact List.mem_cons_self _ _
      · intro x hx
        rcases List.mem_cons.mp hx with hxv | hx
        · rw [hxv]
          exact le_max_left _ _
        · exact le_trans (hle x hx) (le_max_right _ _)

theorem ledgerVersion_of_max (ledger : List MigrationRecord) (k : Int)
    (hk : isApplied ledger k = true) (hmax : ∀ v, isApplied ledger v = true → v ≤ k) :
    ledgerVersion ledger = k := by
  unfold ledgerVersion DatabaseVersion
  cases hg : greatest (appliedVersions (reconciled ledger)) with
  | none =>
    have h0 := (greatest_eq_none _).mp hg
    have hm := (mem_appliedVersions_reconciled ledger k).mpr hk
    rw [h0] at hm
    simp at hm
  | some w =>
    obtain ⟨hw, hle⟩ := greatest_spec _ w hg
    have h1 : w ≤ k := hmax w ((mem_appliedVersions_reconciled ledger w).mp hw)
    have h2 : k ≤ w := hle k ((mem_appliedVersions_reconciled ledger k).mpr hk)
    simp only [Option.getD_some]
    omega

theorem ledgerVersion_of_none (ledger : List MigrationRecord)
    (h : ∀ v, isApplied ledger v = false) : ledgerVersion ledger = 0 := by
  unfold ledgerVersion DatabaseVersion
  cases hg : greatest (appliedVersions (reconciled ledger)) with
  | none => rfl
  | some w =>
    obtain ⟨hw, -⟩ := greatest_spec _ w hg
    have := (mem_appliedVersions_reconciled ledger w).mp hw
    rw [h w] at this
    cases this

theorem ledgerVersion_cases (ledger : List MigrationRecord) :
    (isApplied ledger (ledgerVersion ledger) = true ∧
        ∀ v, isApplied ledger v = true → v ≤ ledgerVersion ledger) ∨
      (ledgerVersion ledger = 0 ∧ ∀ v, isApplied ledger v = false) := by
  cases hg : greatest (appliedVersions (reconciled ledger)) with
  | none =>
    right
    have h0 := (greatest_eq_none _).mp hg
    have hall : ∀ v, isApplied ledger v = false := by
      intro v
      cases hv : isApplied ledger v with
      | false => rfl
      | true =>
        have hm := (mem_appliedVersions_reconciled ledger v).mpr hv
        rw [h0] at hm
        simp at hm
    exact ⟨ledgerVersion_of_none ledger hall, hall⟩
  | some w =>
    left
    obtain ⟨hw, hle⟩ := greatest_spec _ w hg
    have hv : ledgerVersion ledger = w := by
      unfold ledgerVersion DatabaseVersion
      rw [hg]
      rfl
    rw [hv]
    exact ⟨(mem_appliedVersions_reconciled ledger w).mp hw,
      fun v h => hle v ((mem_appliedVersions_reconciled ledger v).mpr h)⟩

theorem dbMigrationsStatus_ledger (env : Env) (hq : LedgerQuery env) (db : DB) :
    dbMigrationsStatus env db = Run.ret (reconciled db.ledger, none) db := by
  unfold dbMigrationsStatus
  rw [hq db]
  simp only [scanRows_ledger]

theorem GetDBVersion_ledger (env : Env) (hq : LedgerQuery env) (db : DB) :
    GetDBVersion env db = Run.ret (ledgerVersion db.ledger, none) db := by
  unfold GetDBVersion
  rw [dbMigrationsStatus_ledger env hq db]
  rfl

theorem ledgerEnv_query (ms : List Migration) : LedgerQuery (ledgerEnv ms) :=
  fun _ => rfl

/-- One iteration of the `DownTo` loop when the row query answers with the ledger. -/
theorem DownToLoop_succ (env : Env) (hq : LedgerQuery env) (ms : List Migration)
    (target : Int) (fuel : Nat) (db : DB) :
    DownToLoop env ms target (fuel + 1) db =
      match Current ms (ledgerVersion db.ledger) with
      | Except.error _ => some (Run.ret none db)
      | Except.ok current =>
        if current.Version ≤ target then some (Run.ret none db)
        else
          match current.Down db with
          | (some e, db2) => some (Run.ret (some e) db2)
          | (none, db2) => DownToLoop env ms target fuel db2 := by
  simp only [DownToLoop]
  rw [GetDBVersion_ledger env hq db]

/-! ## Lemmas on the current migration -/


theorem Current_ok (ms : List Migration) (v : Int) (m : Migration)
    (h : Current ms v = Except.ok m) : m ∈ ms ∧ m.Version = v := by
  unfold Current at h
  cases hf : ms.find? (fun m => m.Version == v) with
  | none => rw [hf] at h; cases h
  | some m1 =>
    rw [hf] at h
    cases h
    exact ⟨List.mem_of_find?_eq_some hf, by simpa using List.find?_some hf⟩

theorem Current_of_mem (ms : List Migration) (v : Int) (h : ∃ m ∈ ms, m.Version = v) :
    ∃ m, Current ms v = Except.ok m ∧ m ∈ ms ∧ m.Version = v := by
  unfold Current
  cases hf : ms.find? (fun m => m.Version == v) with
  | none =>
    obtain ⟨m, hm, hv⟩ := h
    have := List.find?_eq_none.mp hf m hm
    simp [hv] at this
  | some m1 =>
    exact ⟨m1, rfl, List.mem_of_find?_eq_some hf, by simpa using List.find?_some hf⟩

theorem Current_error (ms : List Migration) (v : Int) (h : ∀ m ∈ ms, m.Version ≠ v) :
    Current ms v = Except.error Err.noCurrentVersion := by
  unfold Current
  cases hf : ms.find? (fun m => m.Version == v) with
  | none => rfl
  | some m1 =>
    exact absurd (by simpa using List.find?_some hf) (h m1 (List.mem_of_find?_eq_some hf))

/-! ## Lemmas on the `DownTo` loop -/

theorem isApplied_true_mem (ledger : List MigrationRecord) (v : Int)
    (h : isApplied ledger v = true) : (⟨v, true⟩ : MigrationRecord) ∈ ledger := by
  unfold isApplied StatusMap.get at h
  rw [lookup_reconciled] at h
  unfold firstFlag at h
  cases hf : ledger.reverse.find? (fun r => r.VersionID == v) with
  | none => rw [hf] at h; cases h
  | some r =>
    rw [hf] at h
    have hmem := List.mem_of_find?_eq_some hf
    have hver : r.VersionID = v := by simpa using List.find?_some hf
    have hflag : r.IsApplied = true := by simpa using h
    obtain ⟨a, b⟩ := r
    simp only at hver hflag
    subst hver hflag
    exact List.mem_reverse.mp hmem

theorem appliedCount_pos (ledger : List MigrationRecord) (v : Int)
    (h : isApplied ledger v = true) : 0 < appliedCount ledger := by
  unfold appliedCount
  exact List.length_pos_of_mem ((mem_appliedVersions_reconciled ledger v).mpr h)

theorem appliedCount_rollback (ledger : List MigrationRecord) (v : Int)
    (h : isApplied ledger v = true) :
    appliedCount (ledger ++ [⟨v, false⟩]) < appliedCount ledger := by
  have hmem := (mem_appliedVersions_reconciled ledger v).mpr h
  have hsub : appliedVersions (reconciled (ledger ++ [⟨v, false⟩])) ⊆
      (appliedVersions (reconciled ledger)).erase v := by
    intro w hw
    have hw1 := (mem_appliedVersions_reconciled _ w).mp hw
    rw [isApplied_append] at hw1
    by_cases hvw : v = w
    · simp [hvw] at hw1
    · simp only [hvw, if_false] at hw1
      exact (List.mem_erase_of_ne (fun hc => hvw hc.symm)).mpr
        ((mem_appliedVersions_reconciled ledger w).mpr hw1)
  have hle := (List.subperm_of_subset
    (appliedVersions_nodup _ (reconciled_keys_nodup _)) hsub).length_le
  have hlen := List.length_erase_of_mem hmem
  have hpos := List.length_pos_of_mem hmem
  unfold appliedCount
  omega

theorem rollbackRows_succ (k : Int) (n : Nat) :
    rollbackRows k (n + 1) = ⟨k, false⟩ :: rollbackRows (k - 1) n := by
  unfold rollbackRows
  rw [List.range_succ_eq_map]
  simp only [List.map_cons, List.map_map, Nat.cast_zero, sub_zero]
  congr 1
  apply List.map_congr_left
  intro i _
  simp only [Function.comp, Nat.succ_eq_add_one, Nat.cast_add, Nat.cast_one]
  congr 1
  ring

theorem descending_succ (k : Int) (n : Nat) :
    descending k (n + 1) = k :: descending (k - 1) n := by
  unfold descending
  rw [List.range_succ_eq_map]
  simp only [List.map_cons, List.map_map, Nat.cast_zero, sub_zero]
  congr 1
  apply List.map_congr_left
  intro i _
  simp only [Function.comp, Nat.succ_eq_add_one, Nat.cast_add, Nat.cast_one]
  ring

theorem Down_ok (m : Migration) (db : DB) (h : m.downAction db = none) :
    m.Down db = (none, ⟨db.ledger ++ [⟨m.Version, false⟩], db.calls ++ [Call.down m.Version]⟩) := by
  simp [Migration.Down, h]

theorem Down_err (m : Migration) (db : DB) (e : Err) (h : m.downAction db = some e) :
    m.Down db = (some e, ⟨db.ledger, db.calls ++ [Call.down m.Version]⟩) := by
  simp [Migration.Down, h]

/-- Under the range invariant of a descent, the reported version is the top of the range. -/
theorem ledgerVersion_of_range (ledger : List MigrationRecord) (k : Int) (hk : 0 ≤ k)
    (hall : ∀ v, 1 ≤ v → v ≤ k → isApplied ledger v = true)
    (honly : ∀ v, isApplied ledger v = true → 0 ≤ v ∧ v ≤ k) :
    ledgerVersion ledger = k := by
  by_cases h1 : 1 ≤ k
  · exact ledgerVersion_of_max ledger k (hall k h1 le_rfl) (fun v hv => (honly v hv).2)
  · rcases ledgerVersion_cases ledger with ⟨ha, -⟩ | ⟨h0, -⟩
    · have := honly _ ha
      omega
    · omega

/-- The descent of `DownTo` from `target + n` to `target` when every rollback succeeds. -/
theorem DownToLoop_descends (env : Env) (hq : LedgerQuery env) (ms : List Migration)
    (target : Int) (h0 : 0 ≤ target) (hok : ∀ m ∈ ms, ∀ s, m.downAction s = none) :
    ∀ (n : Nat) (db : DB),
      (∀ v, target < v → v ≤ target + n → ∃ m ∈ ms, m.Version = v) →
      (∀ v, 1 ≤ v → v ≤ target + n → isApplied db.ledger v = true) →
      (∀ v, isApplied db.ledger v = true → 0 ≤ v ∧ v ≤ target + n) →
      ∀ fuel, n < fuel →
        DownToLoop env ms target fuel db =
            some (Run.ret none ⟨db.ledger ++ rollbackRows (target + n) n,
              db.calls ++ (descending (target + n) n).map Call.down⟩) ∧
          ledgerVersion (db.ledger ++ rollbackRows (target + n) n) = target := by
  intro n
  induction n with
  | zero =>
    intro db _ hall honly fuel hf
    obtain ⟨f, rfl⟩ : ∃ f, fuel = f + 1 := ⟨fuel - 1, by omega⟩
    have hv : ledgerVersion db.ledger = target :=
      ledgerVersion_of_range db.ledger target h0
        (fun v h1 h2 => hall v h1 (by simpa using h2))
        (fun v hv => by simpa using honly v hv)
    constructor
    · rw [DownToLoop_succ env hq, hv]
      cases hcur : Current ms target with
      | error e => simp [rollbackRows, descending]
      | ok m =>
        have hmv := (Current_ok _ _ _ hcur).2
        simp [rollbackRows, descending, hmv]
    · simpa [rollbackRows] using hv
  | succ n ih =>
    intro db hset hall honly fuel hf
    obtain ⟨f, rfl⟩ : ∃ f, fuel = f + 1 := ⟨fuel - 1, by omega⟩
    have hk : (target + ((n + 1 : Nat) : Int)) = target + n + 1 := by push_cast; ring
    rw [hk] at hset hall honly ⊢
    have hv : ledgerVersion db.ledger = target + n + 1 :=
      ledgerVersion_of_range db.ledger _ (by omega) hall honly
    obtain ⟨m, hcur, hm, hmv⟩ := Current_of_mem ms (target + n + 1)
      (hset _ (by omega) le_rfl)
    have hD := Down_ok m db (hok m hm db)
    rw [hmv] at hD
    have hstep : DownToLoop env ms target (f + 1) db =
        DownToLoop env ms target f
          ⟨db.ledger ++ [⟨target + n + 1, false⟩], db.calls ++ [Call.down (target + n + 1)]⟩ := by
      rw [DownToLoop_succ env hq, hv, hcur]
      have hnot : ¬ m.Version ≤ target := by omega
      simp only [hnot, if_false, hD]
    obtain ⟨h1, h2⟩ := ih
      ⟨db.ledger ++ [⟨target + n + 1, false⟩], db.calls ++ [Call.down (target + n + 1)]⟩
      (fun v hv1 hv2 => hset v hv1 (by omega))
      (fun v hv1 hv2 => by
        rw [isApplied_append]
        have hne : ¬ target + (n : Int) + 1 = v := by omega
        simp only [hne, if_false]
        exact hall v hv1 (by omega))
      (fun v hv1 => by
        rw [isApplied_append] at hv1
        by_cases hne : target + (n : Int) + 1 = v
        · simp [hne] at hv1
        · simp only [hne, if_false] at hv1
          have := honly v hv1
          omega)
      f (by omega)
    have hsub : target + (n : Int) + 1 - 1 = target + n := by ring
    rw [rollbackRows_succ, descending_succ, hsub]
    constructor
    · rw [hstep, h1]
      simp
    · simpa using h2

/-- A successful rollback of a migration of positive version lowers the reported version. -/
theorem ledgerVersion_rollback_lt (ms : List Migration) (s : DB) (m : Migration)
    (hcur : Current ms (ledgerVersion s.ledger) = Except.ok m) (hp : 0 < m.Version)
    (hd : (m.Down s).1 = none) :
    ledgerVersion (m.Down s).2.ledger < ledgerVersion s.ledger := by
  obtain ⟨-, hmv⟩ := Current_ok _ _ _ hcur
  have hda : m.downAction s = none := by
    cases hx : m.downAction s with
    | none => rfl
    | some e => rw [Down_err m s e hx] at hd; cases hd
  rw [Down_ok m s hda]
  simp only
  rcases ledgerVersion_cases s.ledger with ⟨ha, hmax⟩ | ⟨hz, -⟩
  · rcases ledgerVersion_cases (s.ledger ++ [⟨m.Version, false⟩]) with ⟨ha2, -⟩ | ⟨hz2, -⟩
    · rw [isApplied_append] at ha2
      by_cases hne : m.Version = ledgerVersion (s.ledger ++ [⟨m.Version, false⟩])
      · simp [← hne] at ha2
      · simp only [hne, if_false] at ha2
        have := hmax _ ha2
        omega
    · omega
  · omega

/-- An iteration of the `DownTo` loop whose rollback succeeds goes on from the
database that the rollback left. -/
theorem DownToLoop_rollback_step (env : Env) (hq : LedgerQuery env) (ms : List Migration)
    (target : Int) (fuel : Nat) (s : DB) (m : Migration)
    (hcur : Current ms (ledgerVersion s.ledger) = Except.ok m) (ht : target < m.Version)
    (hd : (m.Down s).1 = none) :
    DownToLoop env ms target (fuel + 1) s = DownToLoop env ms target fuel (m.Down s).2 := by
  have hda : m.downAction s = none := by
    cases hx : m.downAction s with
    | none => rfl
    | some e => rw [Down_err m s e hx] at hd; cases hd
  rw [DownToLoop_succ env hq, hcur]
  simp only [not_le.mpr ht, if_false, Down_ok m s hda]

/-- An iteration of the `DownTo` loop whose rollback fails returns the failure. -/
theorem DownToLoop_rollback_fails (env : Env) (hq : LedgerQuery env) (ms : List Migration)
    (target : Int) (fuel : Nat) (s : DB) (m : Migration) (e : Err)
    (hcur : Current ms (ledgerVersion s.ledger) = Except.ok m) (ht : target < m.Version)
    (hd : (m.Down s).1 = some e) :
    DownToLoop env ms target (fuel + 1) s = some (Run.ret (some e) (m.Down s).2) := by
  cases hx : m.downAction s with
  | none => rw [Down_ok m s hx] at hd; cases hd
  | some e1 =>
    rw [Down_err m s e1 hx] at hd
    simp only [Option.some.injEq] at hd
    subst hd
    rw [DownToLoop_succ env hq, hcur]
    simp only [not_le.mpr ht, if_false, Down_err m s e1 hx]

/-- With no migration of non-positive version above the target, `DownTo` ends
within as many rollbacks as there are applied versions; the versions it rolls
back are strictly descending, above the target and at most the version it
started from. -/
theorem DownToLoop_terminates (env : Env) (hq : LedgerQuery env) (ms : List Migration)
    (target : Int) (hpos : ∀ m ∈ ms, target < m.Version → 0 < m.Version) :
    ∀ (n : Nat) (db : DB), appliedCount db.ledger ≤ n →
      ∃ (r : Option Err) (db1 : DB) (downs : List Int),
        DownToLoop env ms target (n + 1) db = some (Run.ret r db1) ∧
          db1.calls = db.calls ++ downs.map Call.down ∧ downs.length ≤ n ∧
          downs.Pairwise (fun a b => b < a) ∧
          ∀ v ∈ downs, target < v ∧ v ≤ ledgerVersion db.ledger := by
  intro n
  induction n with
  | zero =>
    intro db hn
    rw [DownToLoop_succ env hq]
    cases hcur : Current ms (ledgerVersion db.ledger) with
    | error e => exact ⟨none, db, [], rfl, by simp, by simp, by simp, by simp⟩
    | ok m =>
      obtain ⟨hm, hmv⟩ := Current_ok _ _ _ hcur
      by_cases hle : m.Version ≤ target
      · exact ⟨none, db, [], by simp [hle], by simp, by simp, by simp, by simp⟩
      · exfalso
        have hp := hpos m hm (by omega)
        rcases ledgerVersion_cases db.ledger with ⟨ha, -⟩ | ⟨hz, -⟩
        · have := appliedCount_pos _ _ ha
          omega
        · omega
  | succ n ih =>
    intro db hn
    rw [DownToLoop_succ env hq]
    cases hcur : Current ms (ledgerVersion db.ledger) with
    | error e => exact ⟨none, db, [], rfl, by simp, by simp, by simp, by simp⟩
    | ok m =>
      obtain ⟨hm, hmv⟩ := Current_ok _ _ _ hcur
      by_cases hle : m.Version ≤ target
      · exact ⟨none, db, [], by simp [hle], by simp, by simp, by simp, by simp⟩
      · have hp := hpos m hm (by omega)
        have ha : isApplied db.ledger m.Version = true := by
          rcases ledgerVersion_cases db.ledger with ⟨ha, -⟩ | ⟨hz, -⟩
          · rw [hmv]; exact ha
          · omega
        cases hd : m.downAction db with
        | some e =>
          refine ⟨some e, ⟨db.ledger, db.calls ++ [Call.down m.Version]⟩, [m.Version],
            ?_, ?_, ?_, ?_, ?_⟩
          · simp [hle, Down_err m db e hd]
          · simp
          · simp
          · simp
          · intro v hv
            simp only [List.mem_singleton] at hv
            omega
        | none =>
          have hlt := appliedCount_rollback db.ledger m.Version ha
          have hdec := ledgerVersion_rollback_lt ms db m hcur hp
            (by rw [Down_ok m db hd])
          rw [Down_ok m db hd] at hdec
          simp only at hdec
          obtain ⟨r, db1, downs, h1, h2, h3, h4, h5⟩ := ih
            ⟨db.ledger ++ [⟨m.Version, false⟩], db.calls ++ [Call.down m.Version]⟩
            (by simp only; omega)
          simp only at h5
          refine ⟨r, db1, m.Version :: downs, ?_, ?_, ?_, ?_, ?_⟩
          · simp only [hle, if_false, Down_ok m db hd]
            exact h1
          · rw [h2]
            simp
          · simp
            omega
          · rw [List.pairwise_cons]
            refine ⟨fun v hv => ?_, h4⟩
            have := (h5 v hv).2
            omega
          · intro v hv
            rcases List.mem_cons.mp hv with h | h
            · omega
            · have := h5 v h
              omega

/-- The loop of `DownTo` never ends when the set holds a migration of version
`0`, the target is negative and the ledger marks no version applied. -/
theorem DownToLoop_zero_forever :
    ∀ (fuel : Nat) (db : DB), (∀ r ∈ db.ledger, r.IsApplied = false) →
      DownToLoop (ledgerEnv [okMigration 0]) [okMigration 0] (-1) fuel db = none := by
  intro fuel
  induction fuel with
  | zero => intro db _; rfl
  | succ f ih =>
    intro db hall
    have hnone : ∀ v, isApplied db.ledger v = false := by
      intro v
      cases hv : isApplied db.ledger v with
      | false => rfl
      | true =>
        have := hall _ (isApplied_true_mem _ _ hv)
        cases this
    rw [DownToLoop_succ _ (ledgerEnv_query _), ledgerVersion_of_none _ hnone]
    have hcur : Current [okMigration 0] 0 = Except.ok (okMigration 0) := rfl
    rw [hcur]
    have hD := Down_ok (okMigration 0) db rfl
    have hnot : ¬ (okMigration 0).Version ≤ (-1 : Int) := by decide
    simp only [hnot, if_false, hD]
    apply ih
    intro r hr
    rcases List.mem_append.mp hr with h | h
    · exact hall r h
    · simp at h
      rw [h]

/-! ## Lemmas on `Reset` -/

theorem resetLoop_all_ok (statuses : StatusMap) :
    ∀ (l : List Migration) (db : DB), (∀ m ∈ l, ∀ s, m.downAction s = none) →
      resetLoop statuses l db =
        Run.ret none
          ⟨db.ledger ++ ((l.filter (fun m => statuses.get m.Version)).map
              (fun m => (⟨m.Version, false⟩ : MigrationRecord))),
           db.calls ++ ((l.filter (fun m => statuses.get m.Version)).map
              (fun m => Call.down m.Version))⟩ := by
  intro l
  induction l with
  | nil => intro db _; simp [resetLoop]
  | cons m l ih =>
    intro db hok
    have hl : ∀ x ∈ l, ∀ s, x.downAction s = none :=
      fun x hx => hok x (List.mem_cons_of_mem _ hx)
    by_cases hg : statuses.get m.Version = true
    · simp only [resetLoop, hg, Bool.not_true, Bool.false_eq_true, if_false,
        Down_ok m db (hok m (List.mem_cons_self _ _) db)]
      rw [ih _ hl]
      simp [List.filter_cons, hg]
    · have hg2 : statuses.get m.Version = false := by simpa using hg
      simp only [resetLoop, hg2, Bool.not_false, if_true]
      rw [ih _ hl]
      simp [List.filter_cons, hg2]

theorem sortReverse_perm (ms : List Migration) : (sortReverse ms).Perm ms :=
  List.perm_insertionSort _ ms

theorem sortReverse_sorted (ms : List Migration) :
    (sortReverse ms).Pairwise (fun a b => b.Version ≤ a.Version) := by
  haveI : IsTotal Migration (fun a b => b.Version ≤ a.Version) :=
    ⟨fun a b => le_total _ _⟩
  haveI : IsTrans Migration (fun a b => b.Version ≤ a.Version) :=
    ⟨fun a b c h1 h2 => le_trans h2 h1⟩
  exact List.sorted_insertionSort (fun a b : Migration => b.Version ≤ a.Version) ms

/-- With distinct versions, the versions that `Reset` visits and finds applied
form a strictly descending list. -/
theorem sortReverse_filter_descending (ms : List Migration) (p : Migration → Bool)
    (hu : (ms.map (fun m => m.Version)).Nodup) :
    (((sortReverse ms).filter p).map (fun m => m.Version)).Pairwise (fun a b => b < a) := by
  have hs : ((sortReverse ms).map (fun m => m.Version)).Pairwise (fun a b => b ≤ a) :=
    List.pairwise_map.mpr (sortReverse_sorted ms)
  have hn : ((sortReverse ms).map (fun m => m.Version)).Nodup :=
    ((sortReverse_perm ms).map _).nodup_iff.mpr hu
  have hlt : ((sortReverse ms).map (fun m => m.Version)).Pairwise (fun a b => b < a) :=
    (hs.and hn).imp (fun h => lt_of_le_of_ne h.1 (fun e => h.2 e.symm))
  exact hlt.sublist ((List.filter_sublist _).map _)

theorem mem_descending (k : Int) (n : Nat) (v : Int) :
    v ∈ descending k n ↔ k - n < v ∧ v ≤ k := by
  unfold descending
  simp only [List.mem_map, List.mem_range]
  constructor
  · rintro ⟨i, hi, rfl⟩
    omega
  · intro h
    exact ⟨(k - v).toNat, by omega, by omega⟩

theorem descending_pairwise (n : Nat) :
    ∀ k : Int, (descending k n).Pairwise (fun a b => b < a) := by
  induction n with
  | zero => intro k; simp [descending]
  | succ n ih =>
    intro k
    rw [descending_succ, List.pairwise_cons]
    refine ⟨fun v hv => ?_, ih (k - 1)⟩
    have := (mem_descending (k - 1) n v).mp hv
    omega

/-- A strictly descending list is determined by its elements. -/
theorem descending_unique (l1 l2 : List Int) (h1 : l1.Pairwise (fun a b => b < a))
    (h2 : l2.Pairwise (fun a b => b < a)) (hmem : ∀ v, v ∈ l1 ↔ v ∈ l2) : l1 = l2 := by
  have n1 : l1.Nodup := h1.imp (fun h e => by omega)
  have n2 : l2.Nodup := h2.imp (fun h e => by omega)
  have hp : l1.Perm l2 := (List.perm_ext_iff_of_nodup n1 n2).mpr hmem
  have s1 : l1.Sorted (fun a b => b ≤ a) := h1.imp (fun h => le_of_lt h)
  have s2 : l2.Sorted (fun a b => b ≤ a) := h2.imp (fun h => le_of_lt h)
  haveI : IsAntisymm Int (fun a b => b ≤ a) := ⟨fun a b hab hba => le_antisymm hba hab⟩
  exact List.eq_of_perm_of_sorted hp s1 s2

/-! ## The reconciler (`dbMigrationsStatus`) -/

/-- C1: when the row query delivers a stream, most recent row first, in which
every row decodes, `dbMigrationsStatus` returns without error a map with one
entry per key, whose keys are exactly the versions occurring in the stream and
whose value at each version is the applied flag of the first row of the stream
with that version. -/
theorem dbMigrationsStatus_first_row_wins (env : Env) (db : DB) (rows : List MigrationRecord)
    (hq : env.dbVersionQuery db = Except.ok (rows.map Except.ok)) :
    ∃ result : StatusMap, dbMigrationsStatus env db = Run.ret (result, none) db ∧
      (result.map Prod.fst).Nodup ∧
      (∀ v, v ∈ result.map Prod.fst ↔ v ∈ rows.map (fun r => r.VersionID)) ∧
      (∀ v, result.lookup v =
        (rows.find? (fun r => r.VersionID == v)).map (fun r => r.IsApplied)) := by
  obtain ⟨m, hm, hnd, hl⟩ := scanRows_ok rows [] (by simp)
  have hl2 : ∀ v, m.lookup v =
      (rows.find? (fun r => r.VersionID == v)).map (fun r => r.IsApplied) := by
    intro v
    rw [hl v]
    simp [firstFlag]
  refine ⟨m, ?_, hnd, fun v => ?_, hl2⟩
  · simp [dbMigrationsStatus, hq, hm]
  · rw [← lookup_isSome_iff, hl2 v]
    simp only [Option.isSome_map', List.find?_isSome, List.mem_map]
    constructor
    · rintro ⟨r, hr, hv⟩
      exact ⟨r, hr, by simpa using hv⟩
    · rintro ⟨r, hr, hv⟩
      exact ⟨r, hr, by simpa using hv⟩

/-- Witness of C1 on the stream `(3,false), (2,true), (3,true), (1,true)`. -/
theorem dbMigrationsStatus_first_row_wins_witness :
    ∃ result : StatusMap,
      dbMigrationsStatus (ledgerEnv []) ⟨[⟨1, true⟩, ⟨3, true⟩, ⟨2, true⟩, ⟨3, false⟩], []⟩ =
        Run.ret (result, none) ⟨[⟨1, true⟩, ⟨3, true⟩, ⟨2, true⟩, ⟨3, false⟩], []⟩ ∧
      (result.map Prod.fst).Nodup ∧
      (∀ v, v ∈ result.map Prod.fst ↔
        v ∈ ([⟨3, false⟩, ⟨2, true⟩, ⟨3, true⟩, ⟨1, true⟩] : List MigrationRecord).map
          (fun r => r.VersionID)) ∧
      (∀ v, result.lookup v =
        (([⟨3, false⟩, ⟨2, true⟩, ⟨3, true⟩, ⟨1, true⟩] : List MigrationRecord).find?
          (fun r => r.VersionID == v)).map (fun r => r.IsApplied)) :=
  dbMigrationsStatus_first_row_wins (ledgerEnv [])
    ⟨[⟨1, true⟩, ⟨3, true⟩, ⟨2, true⟩, ⟨3, false⟩], []⟩
    [⟨3, false⟩, ⟨2, true⟩, ⟨3, true⟩, ⟨1, true⟩] rfl

/-- C7, as stated, fails: on a stream whose second row cannot be decoded the
call does not return to its caller at all, it ends the process. -/
theorem dbMigrationsStatus_scan_error_is_fatal :
    dbMigrationsStatus scanFailEnv ⟨[], []⟩ = Run.fatal "error scanning rows:" ∧
      ¬ ∃ (result : StatusMap) (e : Err) (db1 : DB),
        dbMigrationsStatus scanFailEnv ⟨[], []⟩ = Run.ret (result, some e) db1 := by
  constructor
  · rfl
  · rintro ⟨result, e, db1, h⟩
    have h2 : dbMigrationsStatus scanFailEnv ⟨[], []⟩ = Run.fatal "error scanning rows:" := rfl
    rw [h2] at h
    cases h

/-- C7, amended: when the row query delivers a stream in which some row cannot
be decoded, `dbMigrationsStatus` ends the process through `log.Fatal` and
returns nothing to its caller. -/
theorem dbMigrationsStatus_undecodable_row_fatal (env : Env) (db : DB) (rows : List RawRow)
    (e : Err) (hq : env.dbVersionQuery db = Except.ok rows) (he : Except.error e ∈ rows) :
    dbMigrationsStatus env db = Run.fatal "error scanning rows:" := by
  simp [dbMigrationsStatus, hq, scanRows_error rows e he []]

/-- Witness of the amended C7 on a stream whose second row cannot be decoded. -/
theorem dbMigrationsStatus_undecodable_row_fatal_witness :
    dbMigrationsStatus scanFailEnv ⟨[], []⟩ = Run.fatal "error scanning rows:" :=
  dbMigrationsStatus_undecodable_row_fatal scanFailEnv ⟨[], []⟩
    [Except.ok ⟨1, true⟩, Except.error (Err.external "scan"), Except.ok ⟨2, true⟩]
    (Err.external "scan") rfl (by simp)

/-- C8: when the row query fails, `dbMigrationsStatus` runs the table creation
and returns the empty map together with the creation's own result, so it
returns no error exactly when the creation succeeds and never the query's
failure; when the creation fails, `Reset` returns that failure having done
nothing but the creation (and, when collecting the migrations fails, it returns
the collection failure before touching the database). -/
theorem dbMigrationsStatus_query_failure_bootstraps (env : Env) (db : DB) (qe : Err)
    (hq : env.dbVersionQuery db = Except.error qe) :
    dbMigrationsStatus env db =
        Run.ret ([], (env.createVersionTable db).1) (env.createVersionTable db).2 ∧
      (∀ (ce : Err) (ms : List Migration), (env.createVersionTable db).1 = some ce →
        env.CollectMigrations = Except.ok ms →
        Reset env db = Run.ret (some ce) (env.createVersionTable db).2) ∧
      (∀ ce : Err, env.CollectMigrations = Except.error ce →
        Reset env db = Run.ret (some ce) db) := by
  have h1 : dbMigrationsStatus env db =
      Run.ret ([], (env.createVersionTable db).1) (env.createVersionTable db).2 := by
    simp [dbMigrationsStatus, hq]
  refine ⟨h1, fun ce ms hce hms => ?_, fun ce hce => ?_⟩
  · simp [Reset, hms, h1, hce]
  · simp [Reset, hce]

/-- Witness of C8 with a failing query and a failing table creation. -/
theorem dbMigrationsStatus_query_failure_bootstraps_witness :
    dbMigrationsStatus noTableEnv ⟨[⟨1, true⟩], []⟩ =
        Run.ret ([], some (Err.external "cannot create")) ⟨[⟨1, true⟩], []⟩ ∧
      Reset noTableEnv ⟨[⟨1, true⟩], []⟩ =
        Run.ret (some (Err.external "cannot create")) ⟨[⟨1, true⟩], []⟩ :=
  ⟨(dbMigrationsStatus_query_failure_bootstraps noTableEnv ⟨[⟨1, true⟩], []⟩
      (Err.external "no such table") rfl).1,
   (dbMigrationsStatus_query_failure_bootstraps noTableEnv ⟨[⟨1, true⟩], []⟩
      (Err.external "no such table") rfl).2.1 (Err.external "cannot create")
      [okMigration 1] rfl rfl⟩

/-! ## The dialect (`SetDialect`) -/

/-- C9: `SetDialect d` returns an error exactly when `d` is none of the six
dialect names; on error `GetDialect` still returns the dialect it returned
before, and after `SetDialect` on each of the six names, which returns no
error, `GetDialect` returns the dialect of that name. -/
theorem SetDialect_error_iff_unknown (d : String) (dialect : SQLDialect) :
    ((SetDialect d dialect).1.isSome = true ↔
        d ∉ ["postgres", "mysql", "sqlite3", "redshift", "tidb", "clickhouse"]) ∧
      ((SetDialect d dialect).1.isSome = true →
        (SetDialect d dialect).1 = some (Err.unknownDialect d) ∧
        GetDialect (SetDialect d dialect).2 = GetDialect dialect) ∧
      SetDialect "postgres" dialect = (none, SQLDialect.PostgresDialect) ∧
      SetDialect "mysql" dialect = (none, SQLDialect.MySQLDialect) ∧
      SetDialect "sqlite3" dialect = (none, SQLDialect.Sqlite3Dialect) ∧
      SetDialect "redshift" dialect = (none, SQLDialect.RedshiftDialect) ∧
      SetDialect "tidb" dialect = (none, SQLDialect.TiDBDialect) ∧
      SetDialect "clickhouse" dialect = (none, SQLDialect.ClickhouseDialect) ∧
      GetDialect (SetDialect "postgres" dialect).2 = SQLDialect.PostgresDialect ∧
      GetDialect (SetDialect "mysql" dialect).2 = SQLDialect.MySQLDialect ∧
      GetDialect (SetDialect "sqlite3" dialect).2 = SQLDialect.Sqlite3Dialect ∧
      GetDialect (SetDialect "redshift" dialect).2 = SQLDialect.RedshiftDialect ∧
      GetDialect (SetDialect "tidb" dialect).2 = SQLDialect.TiDBDialect ∧
      GetDialect (SetDialect "clickhouse" dialect).2 = SQLDialect.ClickhouseDialect ∧
      GetDialect dialect = dialect := by
  refine ⟨?_, ?_, ?_, ?_, ?_, ?_, ?_, ?_, ?_, ?_, ?_, ?_, ?_, ?_, ?_⟩
  · unfold SetDialect
    simp only [List.mem_cons, List.mem_singleton, List.not_mem_nil, or_false, not_or]
    split_ifs <;> simp_all
  · unfold SetDialect GetDialect
    split_ifs <;> simp
  all_goals simp [SetDialect, GetDialect]

/-- Witness of C9: an unknown name is refused and leaves the dialect in place. -/
theorem SetDialect_error_iff_unknown_witness :
    (SetDialect "oracle" SQLDialect.MySQLDialect).1 = some (Err.unknownDialect "oracle") ∧
      GetDialect (SetDialect "oracle" SQLDialect.MySQLDialect).2 =
        GetDialect SQLDialect.MySQLDialect :=
  (SetDialect_error_iff_unknown "oracle" SQLDialect.MySQLDialect).2.1 (by decide)

/-! ## Rolling back (`Down`, `DownTo`) and `Redo` -/

/-- C3: when the row query answers with the ledger and the target is at or
above `DatabaseVersion`, `DownTo` returns success in its first iteration and
leaves the database as it found it: no action has been invoked and the ledger
has no new row. -/
theorem DownTo_noop_at_or_above_version (env : Env) (ms : List Migration) (db : DB)
    (target : Int) (fuel : Nat) (hq : LedgerQuery env)
    (hc : env.CollectMigrations = Except.ok ms) (ht : ledgerVersion db.ledger ≤ target) :
    DownTo env target (fuel + 1) db = some (Run.ret none db) := by
  unfold DownTo
  rw [hc]
  simp only
  rw [DownToLoop_succ env hq]
  cases hcur : Current ms (ledgerVersion db.ledger) with
  | error e => rfl
  | ok m =>
    have hv := (Current_ok _ _ _ hcur).2
    simp [hv, ht]

/-- Witness of C3: migrations 1, 2, 3 with only 1 and 2 applied, target 2. -/
theorem DownTo_noop_at_or_above_version_witness :
    DownTo (ledgerEnv [okMigration 1, okMigration 2, okMigration 3]) 2 (0 + 1)
        ⟨[⟨1, true⟩, ⟨2, true⟩, ⟨3, true⟩, ⟨3, false⟩], [Call.down 3]⟩ =
      some (Run.ret none ⟨[⟨1, true⟩, ⟨2, true⟩, ⟨3, true⟩, ⟨3, false⟩], [Call.down 3]⟩) :=
  DownTo_noop_at_or_above_version (ledgerEnv [okMigration 1, okMigration 2, okMigration 3])
    [okMigration 1, okMigration 2, okMigration 3]
    ⟨[⟨1, true⟩, ⟨2, true⟩, ⟨3, true⟩, ⟨3, false⟩], [Call.down 3]⟩ 2 0
    (ledgerEnv_query _) rfl (by decide)

/-- C5: when every migration of the set has a positive version and the ledger
marks no version applied, `Down` returns the error `no migration 0` and leaves
the database as it found it: no action has been invoked and the ledger has no
new row. -/
theorem Down_not_found_when_nothing_applied (env : Env) (ms : List Migration) (db : DB)
    (hq : LedgerQuery env) (hc : env.CollectMigrations = Except.ok ms)
    (hpos : ∀ m ∈ ms, 0 < m.Version) (hnone : ∀ v, isApplied db.ledger v = false) :
    ledgerVersion db.ledger = 0 ∧ Down env db = Run.ret (some (Err.noMigration 0)) db := by
  have hv := ledgerVersion_of_none db.ledger hnone
  refine ⟨hv, ?_⟩
  unfold Down
  rw [GetDBVersion_ledger env hq db, hv]
  simp only [hc]
  rw [Current_error ms 0 (fun m hm => ne_of_gt (hpos m hm))]

/-- C6, as stated, fails: on the empty ledger `DatabaseVersion` is `0`, the set
holds a migration of version `0`, both steps of `Redo` succeed, and the
reconciled state has no entry for `0` before the call and the entry `true`
after it. -/
theorem Redo_changes_state_at_version_zero :
    ledgerVersion [] = 0 ∧
      (∃ m, Current [okMigration 0] (ledgerVersion []) = Except.ok m) ∧
      Redo (ledgerEnv [okMigration 0]) ⟨[], []⟩ =
        Run.ret none ⟨[⟨0, false⟩, ⟨0, true⟩], [Call.down 0, Call.up 0]⟩ ∧
      (reconciled []).lookup 0 = none ∧ (reconciled []).get 0 = false ∧
      (reconciled [⟨0, false⟩, ⟨0, true⟩]).lookup 0 = some true := by
  refine ⟨by decide, ⟨okMigration 0, rfl⟩, rfl, by decide, by decide, by decide⟩

/-- C6, amended: when the reconciled state marks `DatabaseVersion` applied, that
version has a migration in the set and both the rollback and the re-apply
succeed, `Redo` appends exactly the rows `(v,false)` then `(v,true)`, and the
reconciled state is the same before and after, with `true` at `v` in both. -/
theorem Redo_appends_two_rows_keeps_state (env : Env) (ms : List Migration) (db : DB)
    (m : Migration) (hq : LedgerQuery env) (hc : env.CollectMigrations = Except.ok ms)
    (hcur : Current ms (ledgerVersion db.ledger) = Except.ok m)
    (happ : (reconciled db.ledger).get (ledgerVersion db.ledger) = true)
    (hdown : m.downAction db = none) (hup : m.upAction (m.Down db).2 = none) :
    Redo env db =
        Run.ret none
          ⟨db.ledger ++ [⟨ledgerVersion db.ledger, false⟩, ⟨ledgerVersion db.ledger, true⟩],
           db.calls ++ [Call.down (ledgerVersion db.ledger), Call.up (ledgerVersion db.ledger)]⟩ ∧
      (∀ w, (reconciled (db.ledger ++
            [⟨ledgerVersion db.ledger, false⟩, ⟨ledgerVersion db.ledger, true⟩])).lookup w =
          (reconciled db.ledger).lookup w) ∧
      (reconciled (db.ledger ++
          [⟨ledgerVersion db.ledger, false⟩, ⟨ledgerVersion db.ledger, true⟩])).get
        (ledgerVersion db.ledger) = true := by
  have hv := (Current_ok _ _ _ hcur).2
  have hD : m.Down db = (none, ⟨db.ledger ++ [⟨m.Version, false⟩],
      db.calls ++ [Call.down m.Version]⟩) := by
    simp [Migration.Down, hdown]
  rw [hD] at hup
  have hU : m.Up ⟨db.ledger ++ [⟨m.Version, false⟩], db.calls ++ [Call.down m.Version]⟩ =
      (none, ⟨db.ledger ++ [⟨m.Version, false⟩] ++ [⟨m.Version, true⟩],
        db.calls ++ [Call.down m.Version] ++ [Call.up m.Version]⟩) := by
    simp [Migration.Up, hup]
  have hlook : ∀ w, (reconciled (db.ledger ++
        [⟨ledgerVersion db.ledger, false⟩, ⟨ledgerVersion db.ledger, true⟩])).lookup w =
      (reconciled db.ledger).lookup w := by
    intro w
    have happ2 : (reconciled db.ledger).lookup (ledgerVersion db.ledger) = some true := by
      unfold StatusMap.get at happ
      cases hl : List.lookup (ledgerVersion db.ledger) (reconciled db.ledger) with
      | none => rw [hl] at happ; cases happ
      | some b => rw [hl] at happ; simp at happ; rw [happ]
    have hsplit : db.ledger ++
        [⟨ledgerVersion db.ledger, false⟩, ⟨ledgerVersion db.ledger, true⟩] =
        (db.ledger ++ [⟨ledgerVersion db.ledger, false⟩]) ++
          [⟨ledgerVersion db.ledger, true⟩] := by simp
    rw [hsplit, lookup_reconciled_append, lookup_reconciled_append]
    by_cases hw : ledgerVersion db.ledger = w
    · subst hw
      simp [happ2]
    · simp [hw]
  refine ⟨?_, hlook, ?_⟩
  · unfold Redo
    rw [GetDBVersion_ledger env hq db]
    rw [hv] at hD hU
    simp only [hc, hcur, hD, hU]
    simp
  · unfold StatusMap.get
    rw [hlook]
    exact happ

/-- Witness of the amended C6: migrations 1 and 2 applied, `Redo` of version 2. -/
theorem Redo_appends_two_rows_keeps_state_witness :
    Redo (ledgerEnv [okMigration 1, okMigration 2]) ⟨[⟨1, true⟩, ⟨2, true⟩], []⟩ =
        Run.ret none
          ⟨[⟨1, true⟩, ⟨2, true⟩] ++
              [⟨ledgerVersion [⟨1, true⟩, ⟨2, true⟩], false⟩,
               ⟨ledgerVersion [⟨1, true⟩, ⟨2, true⟩], true⟩],
           [] ++ [Call.down (ledgerVersion [⟨1, true⟩, ⟨2, true⟩]),
                  Call.up (ledgerVersion [⟨1, true⟩, ⟨2, true⟩])]⟩ ∧
      (∀ w, (reconciled ([⟨1, true⟩, ⟨2, true⟩] ++
            [⟨ledgerVersion [⟨1, true⟩, ⟨2, true⟩], false⟩,
             ⟨ledgerVersion [⟨1, true⟩, ⟨2, true⟩], true⟩])).lookup w =
          (reconciled [⟨1, true⟩, ⟨2, true⟩]).lookup w) ∧
      (reconciled ([⟨1, true⟩, ⟨2, true⟩] ++
          [⟨ledgerVersion [⟨1, true⟩, ⟨2, true⟩], false⟩,
           ⟨ledgerVersion [⟨1, true⟩, ⟨2, true⟩], true⟩])).get
        (ledgerVersion [⟨1, true⟩, ⟨2, true⟩]) = true :=
  Redo_appends_two_rows_keeps_state (ledgerEnv [okMigration 1, okMigration 2])
    [okMigration 1, okMigration 2] ⟨[⟨1, true⟩, ⟨2, true⟩], []⟩ (okMigration 2)
    (ledgerEnv_query _) rfl rfl (by decide) rfl rfl

/-- Witness of C5: migrations 1 and 2, version 1 applied and rolled back again. -/
theorem Down_not_found_when_nothing_applied_witness :
    ledgerVersion [⟨1, true⟩, ⟨1, false⟩] = 0 ∧
      Down (ledgerEnv [okMigration 1, okMigration 2]) ⟨[⟨1, true⟩, ⟨1, false⟩], []⟩ =
        Run.ret (some (Err.noMigration 0)) ⟨[⟨1, true⟩, ⟨1, false⟩], []⟩ :=
  Down_not_found_when_nothing_applied (ledgerEnv [okMigration 1, okMigration 2])
    [okMigration 1, okMigration 2] ⟨[⟨1, true⟩, ⟨1, false⟩], []⟩ (ledgerEnv_query _) rfl
    (by
      intro m hm
      simp only [List.mem_cons, List.mem_singleton, List.not_mem_nil, or_false] at hm
      rcases hm with h | h <;> rw [h] <;> decide)
    (by
      intro v
      cases hv : isApplied [⟨1, true⟩, ⟨1, false⟩] v with
      | false => rfl
      | true =>
        have hmem := isApplied_true_mem _ _ hv
        simp at hmem
        rw [hmem] at hv
        exact absurd hv (by decide))

/-- C4: with `0 ≤ target < N`, a migration for every version `1..N`, those
versions all applied and no applied version outside `0..N`, and every rollback
succeeding, `DownTo target` returns success having appended exactly the rows
`(N,false), (N-1,false), ..., (target+1,false)` in that order (one `Down` each),
and `DatabaseVersion` is then `target`. -/
theorem DownTo_rolls_back_to_target (env : Env) (ms : List Migration) (db : DB) (N : Nat)
    (target : Int) (fuel : Nat) (hq : LedgerQuery env)
    (hc : env.CollectMigrations = Except.ok ms) (ht0 : 0 ≤ target) (htN : target < N)
    (hset : ∀ v : Int, 1 ≤ v → v ≤ N → ∃ m ∈ ms, m.Version = v)
    (hall : ∀ v : Int, 1 ≤ v → v ≤ N → isApplied db.ledger v = true)
    (honly : ∀ v : Int, isApplied db.ledger v = true → 0 ≤ v ∧ v ≤ N)
    (hok : ∀ m ∈ ms, ∀ s, m.downAction s = none)
    (hf : (N - target).toNat < fuel) :
    DownTo env target fuel db =
        some (Run.ret none
          ⟨db.ledger ++ rollbackRows N (N - target).toNat,
           db.calls ++ (descending N (N - target).toNat).map Call.down⟩) ∧
      ledgerVersion (db.ledger ++ rollbackRows N (N - target).toNat) = target := by
  have hn : target + (((N : Int) - target).toNat : Int) = N := by omega
  have h := DownToLoop_descends env hq ms target ht0 hok ((N : Int) - target).toNat db
    (fun v h1 h2 => hset v (by omega) (by omega))
    (fun v h1 h2 => hall v h1 (by omega))
    (fun v hv => by have := honly v hv; omega)
    fuel hf
  rw [hn] at h
  unfold DownTo
  rw [hc]
  exact h

/-- Witness of C4: migrations 1, 2, 3 all applied and 3 rolled back once;
`DownTo 1` appends only `(2,false)` and ends with `DatabaseVersion` 1. -/
theorem DownTo_rolls_back_to_target_witness :
    DownTo (ledgerEnv [okMigration 1, okMigration 2, okMigration 3]) 1 2
        ⟨[⟨1, true⟩, ⟨2, true⟩, ⟨3, true⟩, ⟨3, false⟩], [Call.down 3]⟩ =
      some (Run.ret none
        ⟨[⟨1, true⟩, ⟨2, true⟩, ⟨3, true⟩, ⟨3, false⟩, ⟨2, false⟩],
         [Call.down 3, Call.down 2]⟩) ∧
      ledgerVersion [⟨1, true⟩, ⟨2, true⟩, ⟨3, true⟩, ⟨3, false⟩, ⟨2, false⟩] = 1 :=
  DownTo_rolls_back_to_target (ledgerEnv [okMigration 1, okMigration 2, okMigration 3])
    [okMigration 1, okMigration 2, okMigration 3]
    ⟨[⟨1, true⟩, ⟨2, true⟩, ⟨3, true⟩, ⟨3, false⟩], [Call.down 3]⟩ 2 1 2
    (ledgerEnv_query _) rfl (by decide) (by decide)
    (by
      intro v h1 h2
      have hv : v = 1 ∨ v = 2 := by omega
      rcases hv with h | h <;> rw [h]
      · exact ⟨okMigration 1, by simp, rfl⟩
      · exact ⟨okMigration 2, by simp, rfl⟩)
    (by
      intro v h1 h2
      have hv : v = 1 ∨ v = 2 := by omega
      rcases hv with h | h <;> rw [h] <;> decide)
    (by
      intro v hv
      have hmem := isApplied_true_mem _ _ hv
      simp at hmem
      rcases hmem with h | h | h
      · omega
      · omega
      · rw [h] at hv
        exact absurd hv (by decide))
    (by
      intro m hm s
      simp only [List.mem_cons, List.mem_singleton, List.not_mem_nil, or_false] at hm
      rcases hm with h | h | h <;> rw [h] <;> rfl)
    (by decide)

/-- C10, as stated, fails: with a migration of version `0`, the empty ledger
and target `-1`, every rollback succeeds and appends `(0,false)`, yet the loop
ends for no number of iterations, `DatabaseVersion` staying `0`; and rolling
back the only applied version `-5` raises `DatabaseVersion` from `-5` to `0`. -/
theorem DownTo_loops_forever_at_version_zero :
    (¬ ∃ fuel : Nat, (DownTo (ledgerEnv [okMigration 0]) (-1) fuel ⟨[], []⟩).isSome = true) ∧
      ledgerVersion [] = 0 ∧ ledgerVersion [⟨0, false⟩] = 0 ∧
      ledgerVersion [⟨-5, true⟩] = -5 ∧
      (okMigration (-5)).Down ⟨[⟨-5, true⟩], []⟩ =
        (none, ⟨[⟨-5, true⟩, ⟨-5, false⟩], [Call.down (-5)]⟩) ∧
      ledgerVersion [⟨-5, true⟩, ⟨-5, false⟩] = 0 := by
  refine ⟨?_, by decide, by decide, by decide, rfl, by decide⟩
  rintro ⟨fuel, h⟩
  have h0 : DownTo (ledgerEnv [okMigration 0]) (-1) fuel ⟨[], []⟩ = none :=
    DownToLoop_zero_forever fuel ⟨[], []⟩ (by simp)
  rw [h0] at h
  cases h

/-- C10, amended: when every migration of the set whose version is above the
target has a positive version, the `DownTo` loop ends within `appliedCount + 1`
iterations; the versions it invoked `Down` on are at most as many as the
applied versions, strictly descending, above the target and at most the
`DatabaseVersion` it started from; and an iteration of the loop that finds the
current migration above the target either performs a successful rollback, after
which the loop goes on from the database the rollback left and `DatabaseVersion`
is strictly smaller there, or returns the rollback's failure. -/
theorem DownTo_terminates (env : Env) (ms : List Migration) (db : DB) (target : Int)
    (hq : LedgerQuery env) (hc : env.CollectMigrations = Except.ok ms)
    (hpos : ∀ m ∈ ms, target < m.Version → 0 < m.Version) :
    (∃ (r : Option Err) (db1 : DB) (downs : List Int),
        DownTo env target (appliedCount db.ledger + 1) db = some (Run.ret r db1) ∧
          db1.calls = db.calls ++ downs.map Call.down ∧
          downs.length ≤ appliedCount db.ledger ∧
          downs.Pairwise (fun a b => b < a) ∧
          ∀ v ∈ downs, target < v ∧ v ≤ ledgerVersion db.ledger) ∧
      (∀ (s : DB) (m : Migration) (fuel : Nat),
        Current ms (ledgerVersion s.ledger) = Except.ok m →
        target < m.Version → (m.Down s).1 = none →
        DownToLoop env ms target (fuel + 1) s =
            DownToLoop env ms target fuel (m.Down s).2 ∧
          (m.Down s).2.calls = s.calls ++ [Call.down (ledgerVersion s.ledger)] ∧
          ledgerVersion (m.Down s).2.ledger < ledgerVersion s.ledger) ∧
      (∀ (s : DB) (m : Migration) (fuel : Nat) (e : Err),
        Current ms (ledgerVersion s.ledger) = Except.ok m →
        target < m.Version → (m.Down s).1 = some e →
        DownToLoop env ms target (fuel + 1) s = some (Run.ret (some e) (m.Down s).2)) := by
  refine ⟨?_, ?_, ?_⟩
  · unfold DownTo
    rw [hc]
    exact DownToLoop_terminates env hq ms target hpos (appliedCount db.ledger) db le_rfl
  · intro s m fuel hcur ht hd
    obtain ⟨hm, hmv⟩ := Current_ok _ _ _ hcur
    refine ⟨DownToLoop_rollback_step env hq ms target fuel s m hcur ht hd, ?_,
      ledgerVersion_rollback_lt ms s m hcur (hpos m hm ht) hd⟩
    have hda : m.downAction s = none := by
      cases hx : m.downAction s with
      | none => rfl
      | some e => rw [Down_err m s e hx] at hd; cases hd
    rw [Down_ok m s hda, hmv]
  · intro s m fuel e hcur ht hd
    exact DownToLoop_rollback_fails env hq ms target fuel s m e hcur ht hd

/-- Witness of the amended C10: migrations 1, 2, 3 all applied, target 0. -/
theorem DownTo_terminates_witness :
    (∃ (r : Option Err) (db1 : DB) (downs : List Int),
        DownTo (ledgerEnv [okMigration 1, okMigration 2, okMigration 3]) 0
            (appliedCount [⟨1, true⟩, ⟨2, true⟩, ⟨3, true⟩] + 1)
            ⟨[⟨1, true⟩, ⟨2, true⟩, ⟨3, true⟩], []⟩ = some (Run.ret r db1) ∧
          db1.calls = [] ++ downs.map Call.down ∧
          downs.length ≤ appliedCount [⟨1, true⟩, ⟨2, true⟩, ⟨3, true⟩] ∧
          downs.Pairwise (fun a b => b < a) ∧
          ∀ v ∈ downs, 0 < v ∧ v ≤ ledgerVersion [⟨1, true⟩, ⟨2, true⟩, ⟨3, true⟩]) ∧
      DownToLoop (ledgerEnv [okMigration 1, okMigration 2, okMigration 3])
          [okMigration 1, okMigration 2, okMigration 3] 0 (3 + 1)
          ⟨[⟨1, true⟩, ⟨2, true⟩, ⟨3, true⟩], []⟩ =
        DownToLoop (ledgerEnv [okMigration 1, okMigration 2, okMigration 3])
          [okMigration 1, okMigration 2, okMigration 3] 0 3
          ((okMigration 3).Down ⟨[⟨1, true⟩, ⟨2, true⟩, ⟨3, true⟩], []⟩).2 ∧
      ((okMigration 3).Down ⟨[⟨1, true⟩, ⟨2, true⟩, ⟨3, true⟩], []⟩).2.calls =
        [] ++ [Call.down (ledgerVersion [⟨1, true⟩, ⟨2, true⟩, ⟨3, true⟩])] ∧
      ledgerVersion ((okMigration 3).Down ⟨[⟨1, true⟩, ⟨2, true⟩, ⟨3, true⟩], []⟩).2.ledger <
        ledgerVersion [⟨1, true⟩, ⟨2, true⟩, ⟨3, true⟩] :=
  ⟨(DownTo_terminates (ledgerEnv [okMigration 1, okMigration 2, okMigration 3])
      [okMigration 1, okMigration 2, okMigration 3] ⟨[⟨1, true⟩, ⟨2, true⟩, ⟨3, true⟩], []⟩ 0
      (ledgerEnv_query _) rfl (fun _ _ h => h)).1,
   (DownTo_terminates (ledgerEnv [okMigration 1, okMigration 2, okMigration 3])
      [okMigration 1, okMigration 2, okMigration 3] ⟨[⟨1, true⟩, ⟨2, true⟩, ⟨3, true⟩], []⟩ 0
      (ledgerEnv_query _) rfl (fun _ _ h => h)).2.1
      ⟨[⟨1, true⟩, ⟨2, true⟩, ⟨3, true⟩], []⟩ (okMigration 3) 3 rfl (by decide) rfl⟩

/-! ## `Reset` -/

/-- C2: when the versions of the set are distinct, the reconciler returns the
snapshot `statuses` and every rollback succeeds, `Reset` returns success having
invoked `Down` (appending the row `(v,false)`) on a strictly descending list of
versions, which are exactly the versions of the set that the snapshot marks
applied, hence once each and on no other; with the set `1..N` all applied these
are `N, N-1, ..., 1`. -/
theorem Reset_rolls_back_applied_descending (env : Env) (ms : List Migration) (db db1 : DB)
    (statuses : StatusMap) (hc : env.CollectMigrations = Except.ok ms)
    (hs : dbMigrationsStatus env db = Run.ret (statuses, none) db1)
    (hu : (ms.map (fun m => m.Version)).Nodup)
    (hok : ∀ m ∈ ms, ∀ s, m.downAction s = none) :
    ∃ downs : List Int,
      Reset env db =
          Run.ret none
            ⟨db1.ledger ++ downs.map (fun v => (⟨v, false⟩ : MigrationRecord)),
             db1.calls ++ downs.map Call.down⟩ ∧
        downs.Pairwise (fun a b => b < a) ∧
        (∀ v, v ∈ downs ↔ (∃ m ∈ ms, m.Version = v) ∧ statuses.get v = true) ∧
        (∀ N : Nat,
          (ms.map (fun m => m.Version)).Perm
              ((List.range N).map (fun (i : Nat) => (i : Int) + 1)) →
          (∀ v : Int, 1 ≤ v → v ≤ N → statuses.get v = true) →
          downs = descending N N) := by
  have hmem : ∀ v, v ∈ ((sortReverse ms).filter (fun m => statuses.get m.Version)).map
      (fun m => m.Version) ↔ (∃ m ∈ ms, m.Version = v) ∧ statuses.get v = true := by
    intro v
    simp only [List.mem_map, List.mem_filter]
    constructor
    · rintro ⟨m, ⟨hm, hg⟩, hv⟩
      subst hv
      exact ⟨⟨m, (sortReverse_perm ms).mem_iff.mp hm, rfl⟩, hg⟩
    · rintro ⟨⟨m, hm, hv⟩, hg⟩
      subst hv
      exact ⟨m, ⟨(sortReverse_perm ms).mem_iff.mpr hm, hg⟩, rfl⟩
  have hdesc := sortReverse_filter_descending ms (fun m => statuses.get m.Version) hu
  refine ⟨((sortReverse ms).filter (fun m => statuses.get m.Version)).map
    (fun m => m.Version), ?_, hdesc, hmem, ?_⟩
  · unfold Reset
    rw [hc]
    simp only [hs]
    rw [resetLoop_all_ok statuses (sortReverse ms) db1
      (fun m hm => hok m ((sortReverse_perm ms).mem_iff.mp hm))]
    simp [List.map_map, Function.comp_def]
  · intro N hperm hall
    apply descending_unique _ _ hdesc (descending_pairwise N N)
    intro v
    rw [hmem v, mem_descending]
    have hset : (∃ m ∈ ms, m.Version = v) ↔ 1 ≤ v ∧ v ≤ N := by
      have h1 : (∃ m ∈ ms, m.Version = v) ↔ v ∈ ms.map (fun m => m.Version) := by
        simp [List.mem_map]
      rw [h1, hperm.mem_iff]
      simp only [List.mem_map, List.mem_range]
      constructor
      · rintro ⟨i, hi, rfl⟩
        omega
      · intro h
        exact ⟨(v - 1).toNat, by omega, by omega⟩
    rw [hset]
    constructor
    · rintro ⟨⟨h1, h2⟩, -⟩
      omega
    · intro h
      exact ⟨⟨by omega, h.2⟩, hall v (by omega) h.2⟩

/-- Witness of C2: migrations 1, 2, 3 all applied are rolled back in the order 3, 2, 1. -/
theorem Reset_rolls_back_applied_descending_witness :
    ∃ downs : List Int,
      Reset (ledgerEnv [okMigration 1, okMigration 2, okMigration 3])
          ⟨[⟨1, true⟩, ⟨2, true⟩, ⟨3, true⟩], []⟩ =
          Run.ret none
            ⟨[⟨1, true⟩, ⟨2, true⟩, ⟨3, true⟩] ++
                downs.map (fun v => (⟨v, false⟩ : MigrationRecord)),
             [] ++ downs.map Call.down⟩ ∧
        downs.Pairwise (fun a b => b < a) ∧
        (∀ v, v ∈ downs ↔
          (∃ m ∈ [okMigration 1, okMigration 2, okMigration 3], m.Version = v) ∧
            (reconciled [⟨1, true⟩, ⟨2, true⟩, ⟨3, true⟩]).get v = true) ∧
        (∀ N : Nat,
          ([okMigration 1, okMigration 2, okMigration 3].map (fun m => m.Version)).Perm
              ((List.range N).map (fun (i : Nat) => (i : Int) + 1)) →
          (∀ v : Int, 1 ≤ v → v ≤ N →
            (reconciled [⟨1, true⟩, ⟨2, true⟩, ⟨3, true⟩]).get v = true) →
          downs = descending N N) :=
  Reset_rolls_back_applied_descending (ledgerEnv [okMigration 1, okMigration 2, okMigration 3])
    [okMigration 1, okMigration 2, okMigration 3] ⟨[⟨1, true⟩, ⟨2, true⟩, ⟨3, true⟩], []⟩
    ⟨[⟨1, true⟩, ⟨2, true⟩, ⟨3, true⟩], []⟩ (reconciled [⟨1, true⟩, ⟨2, true⟩, ⟨3, true⟩])
    rfl (dbMigrationsStatus_ledger _ (ledgerEnv_query _) _) (by decide)
    (by
      intro m hm s
      simp only [List.mem_cons, List.mem_singleton, List.not_mem_nil, or_false] at hm
      rcases hm with h | h | h <;> rw [h] <;> rfl)

end Goose
